import Mathlib

/-!
Verification development for the superman worker engine.

This file gives a shallow embedding of the worker engine's core:
the Gearman wire codec (`src/protocols/gearman.rs`), the reader,
writer, assignee and exitter tasks (`src/state/*.rs`), the Order
runner (`src/state/order.rs`) and the Fuze latch (`fuze/src/lib.rs`),
and proves or refutes the specified properties about them.

Bytes are modelled as natural numbers (the u8 values); byte strings
as `List Nat`.  Machine-integer arithmetic that can overflow in Rust
is modelled explicitly: `usize` counters wrap modulo `2 ^ 64`, and a
`usize` subtraction that would underflow is a distinguished outcome
(`DecodeResult.panicked`), because in Rust it panics in a debug build.
-/

namespace Superman

/-- Bytes of an ASCII string literal (one byte per code point; every
string this development uses is plain ASCII). -/
def strBytes (s : String) : List Nat := s.toList.map Char.toNat

/-! ## Wire messages (`src/protocols/gearman.rs`)

`Request` and `Response` mirror the deku-derived enums: every
`Vec<u8>` field is a `List Nat`.  The NUL-terminated fields
(`handle`, `numerator`, `name`, `unique`) are stored stripped of
their terminator, exactly as `from_nul_terminated` leaves them. -/

inductive Request where
  | SetClientId (id : List Nat)
  | CanDo (name : List Nat)
  | CantDo (name : List Nat)
  | PreSleep
  | GrabJobUniq
  | WorkStatus (handle numerator denominator : List Nat)
  | WorkComplete (handle data : List Nat)
  | WorkFail (handle : List Nat)
  | WorkException (handle data : List Nat)
  | WorkData (handle data : List Nat)
deriving DecidableEq

inductive Response where
  | Noop
  | NoJob
  | JobAssignUniq (handle name unique workload : List Nat)
deriving DecidableEq

/-- Kind code of a request (`Request::id`). -/
def Request.kindId : Request → Nat
  | .SetClientId _ => 22
  | .CanDo _ => 1
  | .CantDo _ => 2
  | .PreSleep => 4
  | .GrabJobUniq => 30
  | .WorkStatus _ _ _ => 12
  | .WorkComplete _ _ => 13
  | .WorkFail _ => 14
  | .WorkException _ _ => 25
  | .WorkData _ _ => 28

/-- Kind code of a response (`Response::id`). -/
def Response.kindId : Response → Nat
  | .Noop => 6
  | .NoJob => 10
  | .JobAssignUniq _ _ _ _ => 31

/-- The four magic bytes of a REQ frame (`\0REQ`). -/
def magicReq : List Nat := [0, 82, 69, 81]

/-- The four magic bytes of a RES frame (`\0RES`). -/
def magicRes : List Nat := [0, 82, 69, 83]

/-- Big-endian 4-byte encoding of a u32 value. -/
def be32 (n : Nat) : List Nat :=
  [n / 2 ^ 24 % 256, n / 2 ^ 16 % 256, n / 2 ^ 8 % 256, n % 256]

/-- True when a byte string contains no NUL byte, i.e. when
`CString::new` on it succeeds rather than panicking via `.unwrap()`. -/
def nulFree (xs : List Nat) : Bool := !(xs.contains 0)

/-- Payload bytes of a request, as the deku writers emit them:
NUL-delimited fields get their terminator re-appended
(`CString::new(f.to_vec()).unwrap().write(...)`), which panics —
here: `none` — if the field itself contains a NUL byte. -/
def requestPayload : Request → Option (List Nat)
  | .SetClientId id => some id
  | .CanDo name => some name
  | .CantDo name => some name
  | .PreSleep => some []
  | .GrabJobUniq => some []
  | .WorkStatus handle numerator denominator =>
      if nulFree handle && nulFree numerator then
        some (handle ++ 0 :: (numerator ++ 0 :: denominator))
      else none
  | .WorkComplete handle data =>
      if nulFree handle then some (handle ++ 0 :: data) else none
  | .WorkFail handle => some handle
  | .WorkException handle data =>
      if nulFree handle then some (handle ++ 0 :: data) else none
  | .WorkData handle data =>
      if nulFree handle then some (handle ++ 0 :: data) else none

/-- Payload bytes of a response, mirroring the deku writers. -/
def responsePayload : Response → Option (List Nat)
  | .Noop => some []
  | .NoJob => some []
  | .JobAssignUniq handle name unique workload =>
      if nulFree handle && nulFree name && nulFree unique then
        some (handle ++ 0 :: (name ++ 0 :: (unique ++ 0 :: workload)))
      else none

/-- Full frame for a request (`Packet::request(r).to_bytes()`):
magic, kind and length as big-endian u32, then the payload.  The
length field is written in 4 bytes, so the payload must fit in u32. -/
def encodeRequest (r : Request) : Option (List Nat) :=
  match requestPayload r with
  | none => none
  | some p =>
      if p.length < 2 ^ 32 then
        some (magicReq ++ be32 r.kindId ++ be32 p.length ++ p)
      else none

/-- Full frame for a response (`Packet::response(r).to_bytes()`). -/
def encodeResponse (s : Response) : Option (List Nat) :=
  match responsePayload s with
  | none => none
  | some p =>
      if p.length < 2 ^ 32 then
        some (magicRes ++ be32 s.kindId ++ be32 p.length ++ p)
      else none

/-! ## Incremental decoding (`Packet::from_bytes`)

The decoder mirrors deku's field-by-field read: it consumes from the
whole remaining buffer (the declared `length` is consulted only in
the `count` expressions, never as a slice bound), and distinguishes
"not enough data" from any other malformation.  The `count`
expressions of the form `datalen - (k + field.len() + ...)` are
`usize` subtractions in the source: when the subtrahend exceeds
`datalen` the Rust code overflows, which panics in a debug build;
that outcome is modelled as `DecodeResult.panicked`. -/

inductive Parsed where
  | req (r : Request)
  | res (s : Response)
deriving DecidableEq

inductive DecodeResult where
  | ok (p : Parsed) (rest : List Nat)
  | incomplete
  | malformed
  | panicked
deriving DecidableEq

/-- Read a big-endian u32; `none` when fewer than 4 bytes remain. -/
def readU32be : List Nat → Option (Nat × List Nat)
  | b0 :: b1 :: b2 :: b3 :: rest =>
      some (((b0 * 256 + b1) * 256 + b2) * 256 + b3, rest)
  | _ => none

/-- Read exactly `n` bytes (a deku `count = n` field); `none` when
fewer remain ("not enough data"). -/
def readBytes (n : Nat) (b : List Nat) : Option (List Nat × List Nat) :=
  if n ≤ b.length then some (b.take n, b.drop n) else none

/-- Read a NUL-terminated field and strip the terminator (a deku
`CString` read mapped through `from_nul_terminated`); `none` when no
NUL byte is found before the buffer ends. -/
def readCString (b : List Nat) : Option (List Nat × List Nat) :=
  let pre := b.takeWhile (fun x => x != 0)
  if pre.length < b.length then some (pre, b.drop (pre.length + 1)) else none

/-- Decode a request body given the declared payload length and kind
code, mirroring the deku field reads of `enum Request`. -/
def decodeRequestBody (datalen kind : Nat) (b : List Nat) : DecodeResult :=
  match kind with
  | 22 =>
      match readBytes datalen b with
      | some (id, rest) => .ok (.req (.SetClientId id)) rest
      | none => .incomplete
  | 1 =>
      match readBytes datalen b with
      | some (name, rest) => .ok (.req (.CanDo name)) rest
      | none => .incomplete
  | 2 =>
      match readBytes datalen b with
      | some (name, rest) => .ok (.req (.CantDo name)) rest
      | none => .incomplete
  | 4 => .ok (.req .PreSleep) b
  | 30 => .ok (.req .GrabJobUniq) b
  | 12 =>
      match readCString b with
      | none => .incomplete
      | some (handle, b1) =>
          match readCString b1 with
          | none => .incomplete
          | some (numerator, b2) =>
              if datalen < 2 + handle.length + numerator.length then .panicked
              else
                match readBytes (datalen - (2 + handle.length + numerator.length)) b2 with
                | some (denominator, rest) =>
                    .ok (.req (.WorkStatus handle numerator denominator)) rest
                | none => .incomplete
  | 13 =>
      match readCString b with
      | none => .incomplete
      | some (handle, b1) =>
          if datalen < 1 + handle.length then .panicked
          else
            match readBytes (datalen - (1 + handle.length)) b1 with
            | some (data, rest) => .ok (.req (.WorkComplete handle data)) rest
            | none => .incomplete
  | 14 =>
      match readBytes datalen b with
      | some (handle, rest) => .ok (.req (.WorkFail handle)) rest
      | none => .incomplete
  | 25 =>
      match readCString b with
      | none => .incomplete
      | some (handle, b1) =>
          if datalen < 1 + handle.length then .panicked
          else
            match readBytes (datalen - (1 + handle.length)) b1 with
            | some (data, rest) => .ok (.req (.WorkException handle data)) rest
            | none => .incomplete
  | 28 =>
      match readCString b with
      | none => .incomplete
      | some (handle, b1) =>
          if datalen < 1 + handle.length then .panicked
          else
            match readBytes (datalen - (1 + handle.length)) b1 with
            | some (data, rest) => .ok (.req (.WorkData handle data)) rest
            | none => .incomplete
  | _ => .malformed

/-- Decode a response body, mirroring the deku field reads of
`enum Response`.  A RES frame with any other kind code fails to match
an enum variant: a parse error, not an ignore. -/
def decodeResponseBody (datalen kind : Nat) (b : List Nat) : DecodeResult :=
  match kind with
  | 6 => .ok (.res .Noop) b
  | 10 => .ok (.res .NoJob) b
  | 31 =>
      match readCString b with
      | none => .incomplete
      | some (handle, b1) =>
          match readCString b1 with
          | none => .incomplete
          | some (name, b2) =>
              match readCString b2 with
              | none => .incomplete
              | some (unique, b3) =>
                  if datalen < 3 + handle.length + name.length + unique.length then
                    .panicked
                  else
                    match readBytes
                        (datalen - (3 + handle.length + name.length + unique.length)) b3 with
                    | some (workload, rest) =>
                        .ok (.res (.JobAssignUniq handle name unique workload)) rest
                    | none => .incomplete
  | _ => .malformed

/-- Decode one packet from the front of a buffer
(`Packet::from_bytes((&packet, 0))`): magic, then kind and length,
then the body; an unrecognized magic is malformed. -/
def decodePacket (b : List Nat) : DecodeResult :=
  match readU32be b with
  | none => .incomplete
  | some (magic, b1) =>
      if magic == 5391697 || magic == 5391699 then
        match readU32be b1 with
        | none => .incomplete
        | some (kind, b2) =>
            match readU32be b2 with
            | none => .incomplete
            | some (datalen, b3) =>
                if magic == 5391697 then decodeRequestBody datalen kind b3
                else decodeResponseBody datalen kind b3
      else .malformed


theorem readU32be_be32 (n : Nat) (rest : List Nat) (h : n < 2 ^ 32) :
    readU32be (be32 n ++ rest) = some (n, rest) := by
  simp only [be32, List.cons_append, List.nil_append, readU32be,
    Option.some.injEq, Prod.mk.injEq]
  exact ⟨by omega, trivial⟩

theorem readBytes_exact (xs ys : List Nat) :
    readBytes xs.length (xs ++ ys) = some (xs, ys) := by
  unfold readBytes
  rw [if_pos (by simp)]
  simp

theorem readBytes_all (xs : List Nat) : readBytes xs.length xs = some (xs, []) := by
  simpa using readBytes_exact xs []

theorem nulFree_mem (xs : List Nat) (h : nulFree xs = true) : ∀ x ∈ xs, x ≠ 0 := by
  intro x hx hx0
  subst hx0
  exact absurd (by simpa [List.elem_eq_mem] using hx)
    (by simpa [nulFree, List.elem_eq_mem] using h)

theorem takeWhile_append_nul (xs rest : List Nat) (h : ∀ x ∈ xs, x ≠ 0) :
    (xs ++ 0 :: rest).takeWhile (fun x => x != 0) = xs := by
  induction xs with
  | nil => simp [List.takeWhile]
  | cons a t ih =>
      have ha : a ≠ 0 := h a (List.mem_cons_self a t)
      simp only [List.cons_append, List.takeWhile_cons]
      rw [if_pos (by simpa using ha)]
      rw [ih (fun x hx => h x (List.mem_cons_of_mem a hx))]

theorem readCString_term (xs rest : List Nat) (h : nulFree xs = true) :
    readCString (xs ++ 0 :: rest) = some (xs, rest) := by
  have ht := takeWhile_append_nul xs rest (nulFree_mem xs h)
  unfold readCString
  simp only [ht]
  rw [if_pos (by simp)]
  congr 1
  have : xs.length + 1 = (xs ++ [0]).length := by simp
  simp only [Prod.mk.injEq, true_and]
  rw [show xs ++ 0 :: rest = (xs ++ [0]) ++ rest by simp]
  rw [this, List.drop_left]

theorem decodePacket_req (kind plen : Nat) (p : List Nat)
    (hk : kind < 2 ^ 32) (hp : plen < 2 ^ 32) :
    decodePacket (magicReq ++ be32 kind ++ be32 plen ++ p) =
      decodeRequestBody plen kind p := by
  have h1 : readU32be (magicReq ++ (be32 kind ++ (be32 plen ++ p))) =
      some (5391697, be32 kind ++ (be32 plen ++ p)) := rfl
  simp only [List.append_assoc, decodePacket, h1,
    readU32be_be32 kind _ hk, readU32be_be32 plen p hp]
  norm_num

theorem decodePacket_res (kind plen : Nat) (p : List Nat)
    (hk : kind < 2 ^ 32) (hp : plen < 2 ^ 32) :
    decodePacket (magicRes ++ be32 kind ++ be32 plen ++ p) =
      decodeResponseBody plen kind p := by
  have h1 : readU32be (magicRes ++ (be32 kind ++ (be32 plen ++ p))) =
      some (5391699, be32 kind ++ (be32 plen ++ p)) := rfl
  simp only [List.append_assoc, decodePacket, h1,
    readU32be_be32 kind _ hk, readU32be_be32 plen p hp]
  norm_num



theorem encodeRequest_eq (r : Request) (b : List Nat) (h : encodeRequest r = some b) :
    ∃ p, requestPayload r = some p ∧ p.length < 2 ^ 32 ∧
      b = magicReq ++ be32 r.kindId ++ be32 p.length ++ p := by
  unfold encodeRequest at h
  cases hq : requestPayload r with
  | none => rw [hq] at h; cases h
  | some p =>
      rw [hq] at h
      dsimp only at h
      by_cases hl : p.length < 2 ^ 32
      · rw [if_pos hl] at h
        injection h with h'
        exact ⟨p, rfl, hl, h'.symm⟩
      · rw [if_neg hl] at h; cases h

theorem encodeResponse_eq (s : Response) (b : List Nat) (h : encodeResponse s = some b) :
    ∃ p, responsePayload s = some p ∧ p.length < 2 ^ 32 ∧
      b = magicRes ++ be32 s.kindId ++ be32 p.length ++ p := by
  unfold encodeResponse at h
  cases hq : responsePayload s with
  | none => rw [hq] at h; cases h
  | some p =>
      rw [hq] at h
      dsimp only at h
      by_cases hl : p.length < 2 ^ 32
      · rw [if_pos hl] at h
        injection h with h'
        exact ⟨p, rfl, hl, h'.symm⟩
      · rw [if_neg hl] at h; cases h

/-- C6: for every Request variant and every Response variant, decoding the
bytes produced by encoding it yields the message back with an empty tail;
the NUL terminators emitted on encode are stripped again on decode. -/
theorem c6_codec_roundtrip :
    (∀ (r : Request) (b : List Nat),
        encodeRequest r = some b → decodePacket b = .ok (.req r) []) ∧
    (∀ (s : Response) (b : List Nat),
        encodeResponse s = some b → decodePacket b = .ok (.res s) []) := by
  constructor
  · intro r b h
    obtain ⟨p, hp, hlt, rfl⟩ := encodeRequest_eq r b h
    clear h
    cases r with
    | SetClientId id =>
        injection hp with hp'
        subst hp'
        rw [Request.kindId, decodePacket_req 22 _ _ (by norm_num) hlt]
        simp only [decodeRequestBody, readBytes_all]
    | CanDo name =>
        injection hp with hp'
        subst hp'
        rw [Request.kindId, decodePacket_req 1 _ _ (by norm_num) hlt]
        simp only [decodeRequestBody, readBytes_all]
    | CantDo name =>
        injection hp with hp'
        subst hp'
        rw [Request.kindId, decodePacket_req 2 _ _ (by norm_num) hlt]
        simp only [decodeRequestBody, readBytes_all]
    | PreSleep =>
        injection hp with hp'
        subst hp'
        rw [Request.kindId, decodePacket_req 4 _ _ (by norm_num) hlt]
        simp only [decodeRequestBody]
    | GrabJobUniq =>
        injection hp with hp'
        subst hp'
        rw [Request.kindId, decodePacket_req 30 _ _ (by norm_num) hlt]
        simp only [decodeRequestBody]
    | WorkFail handle =>
        injection hp with hp'
        subst hp'
        rw [Request.kindId, decodePacket_req 14 _ _ (by norm_num) hlt]
        simp only [decodeRequestBody, readBytes_all]
    | WorkComplete handle data =>
        simp only [requestPayload] at hp
        by_cases hnul : nulFree handle = true
        · rw [if_pos hnul] at hp
          injection hp with hp'
          subst hp'
          rw [Request.kindId, decodePacket_req 13 _ _ (by norm_num) hlt]
          simp only [decodeRequestBody, readCString_term handle data hnul]
          rw [if_neg (by simp; omega)]
          have hlen : (handle ++ 0 :: data).length - (1 + handle.length) = data.length := by
            simp only [List.length_append, List.length_cons]
            omega
          rw [hlen, readBytes_all]
        · rw [if_neg hnul] at hp; cases hp
    | WorkException handle data =>
        simp only [requestPayload] at hp
        by_cases hnul : nulFree handle = true
        · rw [if_pos hnul] at hp
          injection hp with hp'
          subst hp'
          rw [Request.kindId, decodePacket_req 25 _ _ (by norm_num) hlt]
          simp only [decodeRequestBody, readCString_term handle data hnul]
          rw [if_neg (by simp; omega)]
          have hlen : (handle ++ 0 :: data).length - (1 + handle.length) = data.length := by
            simp only [List.length_append, List.length_cons]
            omega
          rw [hlen, readBytes_all]
        · rw [if_neg hnul] at hp; cases hp
    | WorkData handle data =>
        simp only [requestPayload] at hp
        by_cases hnul : nulFree handle = true
        · rw [if_pos hnul] at hp
          injection hp with hp'
          subst hp'
          rw [Request.kindId, decodePacket_req 28 _ _ (by norm_num) hlt]
          simp only [decodeRequestBody, readCString_term handle data hnul]
          rw [if_neg (by simp; omega)]
          have hlen : (handle ++ 0 :: data).length - (1 + handle.length) = data.length := by
            simp only [List.length_append, List.length_cons]
            omega
          rw [hlen, readBytes_all]
        · rw [if_neg hnul] at hp; cases hp
    | WorkStatus handle numerator denominator =>
        simp only [requestPayload] at hp
        by_cases hnul : (nulFree handle && nulFree numerator) = true
        · rw [if_pos hnul] at hp
          rw [Bool.and_eq_true] at hnul
          injection hp with hp'
          subst hp'
          rw [Request.kindId, decodePacket_req 12 _ _ (by norm_num) hlt]
          simp only [decodeRequestBody, readCString_term handle _ hnul.1,
            readCString_term numerator _ hnul.2]
          rw [if_neg (by simp; omega)]
          have hlen : (handle ++ 0 :: (numerator ++ 0 :: denominator)).length -
              (2 + handle.length + numerator.length) = denominator.length := by
            simp only [List.length_append, List.length_cons]
            omega
          rw [hlen, readBytes_all]
        · rw [if_neg hnul] at hp; cases hp
  · intro s b h
    obtain ⟨p, hp, hlt, rfl⟩ := encodeResponse_eq s b h
    clear h
    cases s with
    | Noop =>
        injection hp with hp'
        subst hp'
        rw [Response.kindId, decodePacket_res 6 _ _ (by norm_num) hlt]
        simp only [decodeResponseBody]
    | NoJob =>
        injection hp with hp'
        subst hp'
        rw [Response.kindId, decodePacket_res 10 _ _ (by norm_num) hlt]
        simp only [decodeResponseBody]
    | JobAssignUniq handle name unique workload =>
        simp only [responsePayload] at hp
        by_cases hnul : (nulFree handle && nulFree name && nulFree unique) = true
        · rw [if_pos hnul] at hp
          simp only [Bool.and_eq_true] at hnul
          injection hp with hp'
          subst hp'
          rw [Response.kindId, decodePacket_res 31 _ _ (by norm_num) hlt]
          simp only [decodeResponseBody, readCString_term handle _ hnul.1.1,
            readCString_term name _ hnul.1.2, readCString_term unique _ hnul.2]
          rw [if_neg (by simp; omega)]
          have hlen : (handle ++ 0 :: (name ++ 0 :: (unique ++ 0 :: workload))).length -
              (3 + handle.length + name.length + unique.length) = workload.length := by
            simp only [List.length_append, List.length_cons]
            omega
          rw [hlen, readBytes_all]
        · rw [if_neg hnul] at hp; cases hp


/-- Witness for C6: the concrete request WorkComplete with handle [72] and
data [1, 2] encodes to the 16-byte frame below, which decodes back to it. -/
theorem c6_codec_roundtrip_witness :
    decodePacket [0, 82, 69, 81, 0, 0, 0, 13, 0, 0, 0, 4, 72, 0, 1, 2] =
      .ok (.req (.WorkComplete [72] [1, 2])) [] :=
  c6_codec_roundtrip.1 (.WorkComplete [72] [1, 2]) _ (by decide)

/-- C7: decoding is NOT total over arbitrary input bytes.  A RES frame with
kind 31 whose declared length (here 0) is smaller than the space consumed
by the three NUL-terminated fields drives the source's `usize` count
expression `datalen - (3 + handle.len() + name.len() + unique.len())`
below zero: in a debug build this subtraction overflow panics (in release
it wraps to a huge count misreported as "not enough data"), instead of
returning the malformed error the claim requires. -/
theorem c7_decode_underflow_panics :
    decodePacket [0, 82, 69, 83, 0, 0, 0, 31, 0, 0, 0, 0, 65, 0, 66, 0, 67, 0] =
      .panicked := by decide



/-! ## The Order runner (`src/state/order.rs`)

One Order executes one assignment.  Its observable output is the
sequence of requests it sends on `req_s`.  Each emitting method —
`exception`, `complete`, `data`, `status` — loads the SeqCst
`sent_complete` flag and returns without sending when it is set; the
terminal emitters store `true` after their send.  The load, the
`req_s.send(...).await` and the store are separate steps with a
suspension point at the send, and the stdout reader is a separately
spawned task running concurrently with the main branch, so the model
below is a two-task interleaving semantics at that granularity.  JSON
(de)serialization of stdout lines is abstracted: an event carries the
body bytes the source would pass on. -/

/-- One parsed line of child stdout (`order::Message`), as
`Order::read_line` dispatches on it; `badLine` is a line that fails to
parse as JSON, which is logged and skipped. -/
inductive OrderEvent where
  | Complete (body : List Nat)
  | Update (body : List Nat)
  | Progress (numerator denominator : Int)
  | Print (content : String)
  | badLine
deriving DecidableEq

/-- How the child run ended: exit 0, exit non-zero (carrying the
`{:?}`-format of the `ExitStatus`, abstracted as a string), or the
`timeout` branch (carrying the `{:?}`-format of the duration). -/
inductive ChildOutcome where
  | ExitZero
  | ExitNonZero (statusRepr : String)
  | TimedOut (timeoutRepr : String)
deriving DecidableEq

/-- Exception body for a non-zero exit (`Order::inner`). -/
def exitNonZeroBody (statusRepr : String) : List Nat :=
  strBytes ("\x7b\"error\":\"order process exited with code=" ++ statusRepr ++ "\"\x7d")

/-- Exception body for a timeout (`Order::inner`). -/
def timedOutBody (timeoutRepr : String) : List Nat :=
  strBytes ("\x7b\"error\":\"order timed out after duration=" ++ timeoutRepr ++ "\"\x7d")

/-- An invocation of one of the emitting methods of `Order`
(`exception`, `complete`, `data`, `status`). -/
inductive Emit where
  | exception (data : List Nat)
  | complete (data : List Nat)
  | sendData (data : List Nat)
  | status (numerator denominator : Int)
deriving DecidableEq

/-- The request an emitting method puts on `req_s`. -/
def emitRequest (handle : List Nat) : Emit → Request
  | .exception d => .WorkException handle d
  | .complete d => .WorkComplete handle d
  | .sendData d => .WorkData handle d
  | .status n d =>
      .WorkStatus handle (strBytes (toString n)) (strBytes (toString d))

/-- Whether the method stores `sent_complete = true` after its send
(the terminal emitters do; `data` and `status` do not). -/
def emitSetsFlag : Emit → Bool
  | .exception _ => true
  | .complete _ => true
  | .sendData _ => false
  | .status _ _ => false

/-- Runtime state of one task (the main branch of `Order::inner`, or
the spawned stdout-reader task): the methods still to run, and the
progress through the current method.  `none` = between methods;
`some (m, false)` = passed the `sent_complete` check, the send not yet
performed; `some (m, true)` = sent, the `store(true)` not yet
performed (reached only by the terminal emitters). -/
structure TaskSt where
  phase : Option (Emit × Bool)
  todo : List Emit
deriving DecidableEq

/-- Shared state of one Order run: the SeqCst `sent_complete` flag,
the requests sent on `req_s` in order, and the two tasks. -/
structure FineSt where
  flag : Bool
  wire : List Request
  main : TaskSt
  reader : TaskSt
deriving DecidableEq

/-- One micro-step of a task, at the granularity the source has: the
flag load (check) is one step, the `req_s.send(...).await` another —
a suspension point at which the other task can run — and the flag
store a third.  A finished task stutters. -/
def taskMicro (handle : List Nat) (flag : Bool) (wire : List Request) (t : TaskSt) :
    Bool × List Request × TaskSt :=
  match t.phase with
  | none =>
      match t.todo with
      | [] => (flag, wire, t)
      | m :: rest =>
          if flag then (flag, wire, { phase := none, todo := rest })
          else (flag, wire, { phase := some (m, false), todo := rest })
  | some (m, false) =>
      (flag, wire ++ [emitRequest handle m],
        { phase := if emitSetsFlag m then some (m, true) else none, todo := t.todo })
  | some (_, true) => (true, wire, { phase := none, todo := t.todo })

/-- Scheduler step: `true` runs the main branch, `false` the stdout
reader. -/
def fineStep (handle : List Nat) (st : FineSt) (who : Bool) : FineSt :=
  if who then
    let r := taskMicro handle st.flag st.wire st.main
    { flag := r.1, wire := r.2.1, main := r.2.2, reader := st.reader }
  else
    let r := taskMicro handle st.flag st.wire st.reader
    { flag := r.1, wire := r.2.1, main := st.main, reader := r.2.2 }

/-- The emitting method a stdout event triggers in `Order::read_line`
(`print` and unparseable lines emit nothing). -/
def eventEmit : OrderEvent → Option Emit
  | .Complete body => some (.complete body)
  | .Update body => some (.sendData body)
  | .Progress n d => some (.status n d)
  | .Print _ => none
  | .badLine => none

/-- The stdout-reader task's method sequence for a list of lines. -/
def readerProg (evs : List OrderEvent) : List Emit := evs.filterMap eventEmit

/-- The main branch's method sequence after the child status (or the
timeout) resolves: the exception for a non-zero exit or a timeout,
then in every case the final `complete([])` — whose own
`sent_complete` check subsumes the `if` that guards the call. -/
def mainProg : ChildOutcome → List Emit
  | .ExitZero => [.complete []]
  | .ExitNonZero s => [.exception (exitNonZeroBody s), .complete []]
  | .TimedOut t => [.exception (timedOutBody t), .complete []]

/-- The state after running an Order under a given schedule. -/
def fineRun (handle : List Nat) (outcome : ChildOutcome) (evs : List OrderEvent)
    (sched : List Bool) : FineSt :=
  sched.foldl (fineStep handle)
    { flag := false, wire := [],
      main := { phase := none, todo := mainProg outcome },
      reader := { phase := none, todo := readerProg evs } }

/-- Terminal requests: WorkComplete or WorkException. -/
def isTerminal : Request → Bool
  | .WorkComplete _ _ => true
  | .WorkException _ _ => true
  | _ => false

def countTerminals (w : List Request) : Nat := (w.filter isTerminal).length

/-- Both tasks ran to completion: every method finished. -/
def Finished (st : FineSt) : Prop :=
  st.main.phase = none ∧ st.main.todo = [] ∧
  st.reader.phase = none ∧ st.reader.todo = []

/-- Both tasks are mid-method at once — the overlap the source allows
because of the suspension point inside each emitting method. -/
def bothMid (st : FineSt) : Prop :=
  st.main.phase ≠ none ∧ st.reader.phase ≠ none

/-- Schedules in which no two method executions overlap: at no point
are the main branch and the stdout reader mid-method simultaneously
(e.g. any run where each `req_s.send` completes without suspending
and the tasks do not run in parallel). -/
def NoOverlap (handle : List Nat) (outcome : ChildOutcome) (evs : List OrderEvent)
    (sched : List Bool) : Prop :=
  ∀ n ∈ List.range (sched.length + 1),
    ¬bothMid (fineRun handle outcome evs (sched.take n))

instance (st : FineSt) : Decidable (Finished st) := by
  unfold Finished; infer_instance

instance (st : FineSt) : Decidable (bothMid st) := by
  unfold bothMid; infer_instance

instance (handle : List Nat) (outcome : ChildOutcome) (evs : List OrderEvent)
    (sched : List Bool) : Decidable (NoOverlap handle outcome evs sched) := by
  unfold NoOverlap; infer_instance


theorem emitRequest_terminal (handle : List Nat) (m : Emit) :
    isTerminal (emitRequest handle m) = emitSetsFlag m := by
  cases m <;> rfl

theorem countTerminals_append (w : List Request) (r : Request) :
    countTerminals (w ++ [r]) = countTerminals w + (if isTerminal r then 1 else 0) := by
  simp only [countTerminals, List.filter_append]
  split <;> simp_all
  all_goals omega

/-- Upper bound on the terminals a task can still emit, given the
current flag value. -/
def capF (f : Bool) (t : TaskSt) : Nat :=
  match t.phase with
  | some (_, true) => 0
  | some (m, false) => if f then (if emitSetsFlag m then 1 else 0) else 1
  | none => if f then 0 else 1

theorem capF_true_le (t : TaskSt) : capF true t ≤ capF false t := by
  obtain ⟨p, td⟩ := t
  rcases p with _ | ⟨m, b⟩
  · simp [capF]
  · cases b <;> simp [capF] <;> split <;> omega

/-- Terminal-count invariant: at most two terminals can ever land on
the wire, and a set flag or a sent-but-unstored method witnesses one
already there. -/
def InvA (st : FineSt) : Prop :=
  countTerminals st.wire + capF st.flag st.main + capF st.flag st.reader ≤ 2 ∧
  (st.flag = true → 1 ≤ countTerminals st.wire) ∧
  (∀ m, st.main.phase = some (m, true) → 1 ≤ countTerminals st.wire) ∧
  (∀ m, st.reader.phase = some (m, true) → 1 ≤ countTerminals st.wire)

theorem invA_step (handle : List Nat) (st : FineSt) (who : Bool) (h : InvA st) :
    InvA (fineStep handle st who) := by
  obtain ⟨f, w, ⟨mp, mt⟩, ⟨rp, rt⟩⟩ := st
  obtain ⟨h1, h2, h3, h4⟩ := h
  simp only at h3 h4
  cases who with
  | true =>
      rcases mp with _ | ⟨m, b⟩
      · cases mt with
        | nil => exact ⟨h1, h2, h3, h4⟩
        | cons m rest =>
            cases f with
            | true =>
                refine ⟨?_, fun _ => h2 rfl, ?_, ?_⟩ <;>
                  simp_all [fineStep, taskMicro, InvA, capF]
            | false =>
                refine ⟨?_, ?_, ?_, ?_⟩ <;>
                  simp_all [fineStep, taskMicro, InvA, capF]
      · cases b with
        | false =>
            cases hm : emitSetsFlag m with
            | true =>
                have hc := countTerminals_append w (emitRequest handle m)
                rw [emitRequest_terminal, hm, if_pos rfl] at hc
                refine ⟨?_, ?_, ?_, ?_⟩ <;>
                  simp_all [fineStep, taskMicro, InvA, capF] <;>
                  cases f <;> simp_all <;> omega
            | false =>
                have hc := countTerminals_append w (emitRequest handle m)
                rw [emitRequest_terminal, hm, if_neg (by simp)] at hc
                refine ⟨?_, ?_, ?_, ?_⟩ <;>
                  simp_all [fineStep, taskMicro, InvA, capF] <;>
                  cases f <;> simp_all <;> omega
        | true =>
            have hcount : 1 ≤ countTerminals w := h3 m rfl
            have hcap := capF_true_le ⟨rp, rt⟩
            refine ⟨?_, fun _ => hcount, ?_, ?_⟩ <;>
              simp_all [fineStep, taskMicro, InvA, capF] <;>
              cases f <;> simp_all <;> omega
  | false =>
      rcases rp with _ | ⟨m, b⟩
      · cases rt with
        | nil => exact ⟨h1, h2, h3, h4⟩
        | cons m rest =>
            cases f with
            | true =>
                refine ⟨?_, fun _ => h2 rfl, ?_, ?_⟩ <;>
                  simp_all [fineStep, taskMicro, InvA, capF]
            | false =>
                refine ⟨?_, ?_, ?_, ?_⟩ <;>
                  simp_all [fineStep, taskMicro, InvA, capF]
      · cases b with
        | false =>
            cases hm : emitSetsFlag m with
            | true =>
                have hc := countTerminals_append w (emitRequest handle m)
                rw [emitRequest_terminal, hm, if_pos rfl] at hc
                refine ⟨?_, ?_, ?_, ?_⟩ <;>
                  simp_all [fineStep, taskMicro, InvA, capF] <;>
                  cases f <;> simp_all <;> omega
            | false =>
                have hc := countTerminals_append w (emitRequest handle m)
                rw [emitRequest_terminal, hm, if_neg (by simp)] at hc
                refine ⟨?_, ?_, ?_, ?_⟩ <;>
                  simp_all [fineStep, taskMicro, InvA, capF] <;>
                  cases f <;> simp_all <;> omega
        | true =>
            have hcount : 1 ≤ countTerminals w := h4 m rfl
            have hcap := capF_true_le ⟨mp, mt⟩
            refine ⟨?_, fun _ => hcount, ?_, ?_⟩ <;>
              simp_all [fineStep, taskMicro, InvA, capF] <;>
              cases f <;> simp_all <;> omega



theorem taskMicro_flag (handle : List Nat) (f : Bool) (w : List Request) (t : TaskSt) :
    (taskMicro handle f w t).1 = f ∨ (taskMicro handle f w t).1 = true := by
  obtain ⟨p, td⟩ := t
  rcases p with _ | ⟨m, b⟩
  · cases td with
    | nil => left; rfl
    | cons m rest => cases f <;> simp [taskMicro]
  · cases b <;> simp [taskMicro]

theorem getLast?_cons_of_getLast? {α : Type} (m : α) (rest : List α) (m' : α)
    (h : rest.getLast? = some m') : (m :: rest).getLast? = some m' := by
  cases rest with
  | nil => cases h
  | cons a t => rw [List.getLast?_cons_cons]; exact h

/-- The main branch always ends with the final `complete([])` check,
so a finished main branch has stored `sent_complete = true`. -/
def InvM (st : FineSt) : Prop :=
  (st.main.phase = none ∧ st.main.todo = [] → st.flag = true) ∧
  (∀ m, st.main.todo.getLast? = some m → emitSetsFlag m = true) ∧
  (∀ m b, st.main.phase = some (m, b) → st.main.todo = [] → emitSetsFlag m = true)

theorem invM_step (handle : List Nat) (st : FineSt) (who : Bool) (h : InvM st) :
    InvM (fineStep handle st who) := by
  obtain ⟨f, w, ⟨mp, mt⟩, ⟨rp, rt⟩⟩ := st
  obtain ⟨h1, h2, h3⟩ := h
  simp only at h1 h2 h3
  cases who with
  | false =>
      refine ⟨?_, ?_, ?_⟩
      · intro hdone
        have hmain : (fineStep handle ⟨f, w, ⟨mp, mt⟩, ⟨rp, rt⟩⟩ false).main = ⟨mp, mt⟩ := rfl
        rw [hmain] at hdone
        have hf : f = true := h1 (by simpa using hdone)
        subst hf
        rcases taskMicro_flag handle true w ⟨rp, rt⟩ with heq | heq <;>
          simp [fineStep, heq]
      · intro m hm
        exact h2 m (by simpa using hm)
      · intro m b hb hmt
        exact h3 m b (by simpa using hb) (by simpa using hmt)
  | true =>
      rcases mp with _ | ⟨m, b⟩
      · cases mt with
        | nil => exact ⟨h1, h2, h3⟩
        | cons m rest =>
            cases f with
            | true =>
                refine ⟨fun _ => rfl, ?_, ?_⟩
                · intro m' hm'
                  exact h2 m' (getLast?_cons_of_getLast? m rest m' (by simpa using hm'))
                · intro m' b' hb'
                  simp [fineStep, taskMicro] at hb'
            | false =>
                refine ⟨?_, ?_, ?_⟩
                · intro hdone
                  simp [fineStep, taskMicro] at hdone
                · intro m' hm'
                  exact h2 m' (getLast?_cons_of_getLast? m rest m' (by simpa using hm'))
                · intro m' b' hb' hmt'
                  have hb2 : m = m' ∧ false = b' := by
                    have h0 : some (m, false) = some (m', b') := by
                      simpa [fineStep, taskMicro] using hb'
                    simpa using h0
                  have hmt2 : rest = [] := by simpa [fineStep, taskMicro] using hmt'
                  subst hmt2
                  rw [← hb2.1]
                  exact h2 m (by simp)
      · cases b with
        | false =>
            cases hm : emitSetsFlag m with
            | true =>
                refine ⟨?_, ?_, ?_⟩
                · intro hdone
                  simp [fineStep, taskMicro, hm] at hdone
                · intro m' hm'
                  exact h2 m' (by simpa using hm')
                · intro m' b' hb' hmt'
                  simp [fineStep, taskMicro, hm] at hb' hmt'
                  obtain ⟨hm', _⟩ := hb'
                  subst hm'
                  exact hm
            | false =>
                refine ⟨?_, ?_, ?_⟩
                · intro hdone
                  simp [fineStep, taskMicro, hm] at hdone
                  exact absurd (h3 m false rfl hdone) (by simp [hm])
                · intro m' hm'
                  exact h2 m' (by simpa using hm')
                · intro m' b' hb'
                  simp [fineStep, taskMicro, hm] at hb'
        | true =>
            refine ⟨fun _ => rfl, ?_, ?_⟩
            · intro m' hm'
              exact h2 m' (by simpa using hm')
            · intro m' b' hb'
              simp [fineStep, taskMicro] at hb'

/-- Sent-but-unstored terminal emitters. -/
def pendN (t : TaskSt) : Nat :=
  match t.phase with
  | some (_, true) => 1
  | _ => 0

/-- In runs without overlapping method executions, the wire holds
exactly (flag set ? 1 : 0) + the sent-but-unstored terminals, and a
set flag means both tasks are between methods. -/
def InvB (st : FineSt) : Prop :=
  countTerminals st.wire =
    (if st.flag then 1 else 0) + pendN st.main + pendN st.reader ∧
  (st.flag = true → st.main.phase = none ∧ st.reader.phase = none)

theorem invB_step (handle : List Nat) (st : FineSt) (who : Bool)
    (h : InvB st) (hno : ¬bothMid st) : InvB (fineStep handle st who) := by
  obtain ⟨f, w, ⟨mp, mt⟩, ⟨rp, rt⟩⟩ := st
  obtain ⟨h1, h2⟩ := h
  simp only at h1 h2
  simp only [bothMid, not_and_or] at hno
  cases who with
  | true =>
      rcases mp with _ | ⟨m, b⟩
      · cases mt with
        | nil => exact ⟨h1, h2⟩
        | cons m rest =>
            cases f with
            | true =>
                refine ⟨by simpa [fineStep, taskMicro, pendN] using h1, ?_⟩
                intro _
                exact ⟨rfl, (h2 rfl).2⟩
            | false =>
                refine ⟨by simpa [fineStep, taskMicro, pendN] using h1, ?_⟩
                intro hf
                simp [fineStep, taskMicro] at hf
      · cases b with
        | false =>
            have hf : f = false := by
              cases f with
              | true => exact absurd (h2 rfl).1 (by simp)
              | false => rfl
            subst hf
            cases hm : emitSetsFlag m with
            | true =>
                have hc := countTerminals_append w (emitRequest handle m)
                rw [emitRequest_terminal, hm, if_pos rfl] at hc
                refine ⟨?_, ?_⟩
                · rcases rp with _ | ⟨m2, b2⟩
                  · simp [fineStep, taskMicro, hm, pendN, hc] at h1 ⊢
                    omega
                  · cases b2 <;>
                      simp [fineStep, taskMicro, hm, pendN, hc] at h1 ⊢ <;>
                      omega
                · intro hf
                  simp [fineStep, taskMicro, hm] at hf
            | false =>
                have hc := countTerminals_append w (emitRequest handle m)
                rw [emitRequest_terminal, hm, if_neg (by simp)] at hc
                refine ⟨?_, ?_⟩
                · rcases rp with _ | ⟨m2, b2⟩
                  · simp [fineStep, taskMicro, hm, pendN, hc] at h1 ⊢
                    omega
                  · cases b2 <;>
                      simp [fineStep, taskMicro, hm, pendN, hc] at h1 ⊢ <;>
                      omega
                · intro hf
                  simp [fineStep, taskMicro, hm] at hf
        | true =>
            have hf : f = false := by
              cases f with
              | true => exact absurd (h2 rfl).1 (by simp)
              | false => rfl
            subst hf
            have hrp : rp = none := by
              rcases hno with hno | hno
              · have himp : (some (m, true) : Option (Emit × Bool)) = none := by
                  simpa using hno
                cases himp
              · simpa using hno
            subst hrp
            refine ⟨?_, fun _ => ⟨rfl, rfl⟩⟩
            simp [fineStep, taskMicro, pendN] at h1 ⊢
            omega
  | false =>
      rcases rp with _ | ⟨m, b⟩
      · cases rt with
        | nil => exact ⟨h1, h2⟩
        | cons m rest =>
            cases f with
            | true =>
                refine ⟨by simpa [fineStep, taskMicro, pendN] using h1, ?_⟩
                intro _
                exact ⟨(h2 rfl).1, rfl⟩
            | false =>
                refine ⟨by simpa [fineStep, taskMicro, pendN] using h1, ?_⟩
                intro hf
                simp [fineStep, taskMicro] at hf
      · cases b with
        | false =>
            have hf : f = false := by
              cases f with
              | true => exact absurd (h2 rfl).2 (by simp)
              | false => rfl
            subst hf
            cases hm : emitSetsFlag m with
            | true =>
                have hc := countTerminals_append w (emitRequest handle m)
                rw [emitRequest_terminal, hm, if_pos rfl] at hc
                refine ⟨?_, ?_⟩
                · rcases mp with _ | ⟨m2, b2⟩
                  · simp [fineStep, taskMicro, hm, pendN, hc] at h1 ⊢
                    omega
                  · cases b2 <;>
                      simp [fineStep, taskMicro, hm, pendN, hc] at h1 ⊢ <;>
                      omega
                · intro hf
                  simp [fineStep, taskMicro, hm] at hf
            | false =>
                have hc := countTerminals_append w (emitRequest handle m)
                rw [emitRequest_terminal, hm, if_neg (by simp)] at hc
                refine ⟨?_, ?_⟩
                · rcases mp with _ | ⟨m2, b2⟩
                  · simp [fineStep, taskMicro, hm, pendN, hc] at h1 ⊢
                    omega
                  · cases b2 <;>
                      simp [fineStep, taskMicro, hm, pendN, hc] at h1 ⊢ <;>
                      omega
                · intro hf
                  simp [fineStep, taskMicro, hm] at hf
        | true =>
            have hf : f = false := by
              cases f with
              | true => exact absurd (h2 rfl).2 (by simp)
              | false => rfl
            subst hf
            have hmp : mp = none := by
              rcases hno with hno | hno
              · simpa using hno
              · have himp : (some (m, true) : Option (Emit × Bool)) = none := by
                  simpa using hno
                cases himp
            subst hmp
            refine ⟨?_, fun _ => ⟨rfl, rfl⟩⟩
            simp [fineStep, taskMicro, pendN] at h1 ⊢
            omega



theorem finePreserve (handle : List Nat) (P : FineSt → Prop)
    (hstep : ∀ st who, P st → P (fineStep handle st who)) :
    ∀ (sched : List Bool) (st : FineSt), P st → P (sched.foldl (fineStep handle) st) := by
  intro sched
  induction sched with
  | nil => intro st h; exact h
  | cons who rest ih => intro st h; exact ih _ (hstep st who h)

theorem invB_fold (handle : List Nat) :
    ∀ (sched : List Bool) (st : FineSt), InvB st →
      (∀ n, n ≤ sched.length → ¬bothMid ((sched.take n).foldl (fineStep handle) st)) →
      InvB (sched.foldl (fineStep handle) st) := by
  intro sched
  induction sched with
  | nil => intro st h _; exact h
  | cons who rest ih =>
      intro st h hno
      have h0 : ¬bothMid st := by
        have := hno 0 (by omega)
        simpa using this
      refine ih (fineStep handle st who) (invB_step handle st who h h0) ?_
      intro n hn
      have := hno (n + 1) (by simp only [List.length_cons]; omega)
      simpa [List.take_succ_cons] using this

theorem invA_init (mp rp : List Emit) :
    InvA { flag := false, wire := [],
           main := { phase := none, todo := mp },
           reader := { phase := none, todo := rp } } := by
  refine ⟨?_, ?_, ?_, ?_⟩ <;> simp [countTerminals, capF]

theorem invM_init (outcome : ChildOutcome) (rp : List Emit) :
    InvM { flag := false, wire := [],
           main := { phase := none, todo := mainProg outcome },
           reader := { phase := none, todo := rp } } := by
  refine ⟨?_, ?_, ?_⟩
  · intro hd
    cases outcome <;> simp [mainProg] at hd
  · intro m hm
    cases outcome <;> simp [mainProg] at hm <;> rw [← hm] <;> rfl
  · intro m b hb
    simp at hb

theorem invB_init (mp rp : List Emit) :
    InvB { flag := false, wire := [],
           main := { phase := none, todo := mp },
           reader := { phase := none, todo := rp } } :=
  ⟨by simp [countTerminals, pendN], by simp⟩

/-- C1 counterexample: the emitting methods are NOT atomic — each
suspends at `req_s.send(...).await` between the `sent_complete` load
and the store — so in the schedule below the stdout reader's
`complete` and the main branch's timeout `exception` both load the
flag as false before either stores it, and TWO terminal requests land
on the request channel: first the WorkComplete, then the
WorkException. -/
theorem c1_two_terminals_cex :
    Finished (fineRun [72] (.TimedOut "1s") [.Complete [49]]
      [false, true, false, false, true, true, true]) ∧
    (fineRun [72] (.TimedOut "1s") [.Complete [49]]
      [false, true, false, false, true, true, true]).wire =
      [.WorkComplete [72] [49], .WorkException [72] (timedOutBody "1s")] ∧
    countTerminals (fineRun [72] (.TimedOut "1s") [.Complete [49]]
      [false, true, false, false, true, true, true]).wire = 2 := by decide

/-- C1 amended: in every complete Order run (child exits zero, exits
non-zero, or the timeout fires) at least one and at most two terminal
requests are sent, and exactly one in every schedule in which no two
emitting-method executions overlap — i.e. whenever the check-send-store
window of one method does not interleave with another's, as in any run
where the channel sends complete without suspending and the two tasks
do not run in parallel.  Two terminals arise only in the overlapping
schedules the counterexample exhibits. -/
theorem c1_terminal_bounds (handle : List Nat) (outcome : ChildOutcome)
    (evs : List OrderEvent) (sched : List Bool)
    (hfin : Finished (fineRun handle outcome evs sched)) :
    1 ≤ countTerminals (fineRun handle outcome evs sched).wire ∧
    countTerminals (fineRun handle outcome evs sched).wire ≤ 2 ∧
    (NoOverlap handle outcome evs sched →
      countTerminals (fineRun handle outcome evs sched).wire = 1) := by
  obtain ⟨hf1, hf2, hf3, hf4⟩ := hfin
  have hA : InvA (fineRun handle outcome evs sched) :=
    finePreserve handle InvA (invA_step handle) sched _
      (invA_init (mainProg outcome) (readerProg evs))
  have hM : InvM (fineRun handle outcome evs sched) :=
    finePreserve handle InvM (invM_step handle) sched _
      (invM_init outcome (readerProg evs))
  have hflag : (fineRun handle outcome evs sched).flag = true := hM.1 ⟨hf1, hf2⟩
  obtain ⟨hA1, hA2, _, _⟩ := hA
  refine ⟨hA2 hflag, by omega, ?_⟩
  intro hno
  have hB : InvB (fineRun handle outcome evs sched) := by
    apply invB_fold handle sched _ (invB_init (mainProg outcome) (readerProg evs))
    intro n hn
    exact hno n (by simp only [List.mem_range]; omega)
  have h1 := hB.1
  rw [hflag] at h1
  simp only [pendN, hf1, hf3, if_pos rfl] at h1
  simpa using h1

/-- Witness for C1 amended: a sequential exit-zero run with no stdout
events — one terminal exactly. -/
theorem c1_terminal_bounds_witness :
    1 ≤ countTerminals (fineRun [72] .ExitZero [] [true, true, true]).wire ∧
    countTerminals (fineRun [72] .ExitZero [] [true, true, true]).wire ≤ 2 ∧
    countTerminals (fineRun [72] .ExitZero [] [true, true, true]).wire = 1 := by
  have h := c1_terminal_bounds [72] .ExitZero [] [true, true, true] (by decide)
  exact ⟨h.1, h.2.1, h.2.2 (by decide)⟩


/-! ## The exitter task (`src/state/worker.rs`, `Worker::exitter`)

After `exit.wait()` returns, the exitter closes the response channel,
and then inspects `current_load`: the `> 0` branch of the source is a
literal `todo!()`, which panics at runtime; only the `== 0` branch
closes the request channel. -/

structure ExitterResult where
  resClosed : Bool
  reqClosed : Bool
  panicked : Bool
deriving DecidableEq

/-- `Worker::exitter` body after the latch burns. -/
def exitterAfterBurn (current_load : Nat) : ExitterResult :=
  if current_load > 0 then
    { resClosed := true, reqClosed := false, panicked := true }
  else
    { resClosed := true, reqClosed := true, panicked := false }

/-- C2: the exitter closes the response channel, but when
`current_load > 0` it does NOT wait for the load to drain — the branch
is a literal `todo!()` that panics, so the request channel is never
closed in that case; only with no in-flight Orders does it close the
request channel. -/
theorem c2_exitter_todo_panics :
    exitterAfterBurn 1 =
      { resClosed := true, reqClosed := false, panicked := true } ∧
    exitterAfterBurn 0 =
      { resClosed := true, reqClosed := true, panicked := false } :=
  ⟨rfl, rfl⟩

/-! ## The writer task (`src/state/writer.rs`, `Worker::writer`)

The writer dequeues requests from the request channel.  Before
forwarding a request it checks `!sent_cant && self.exit.burnt()` and,
when that holds, sends `CantDo { name }` FIRST and sets `sent_cant`;
then it forwards the dequeued request.  When the channel closes it
sends `CantDo { name }` iff `sent_cant` is still false, then exits.
The latch is monotone, so a run is characterized by the queued
requests and the index `burntAt` of the first dequeue at which
`exit.burnt()` already returns true (`burntAt ≥ reqs.length` when the
latch never burns during the loop). -/

def writerLoop (name : List Nat) : Nat → List Request → Bool → List Request
  | _, [], sentCant => if sentCant then [] else [.CantDo name]
  | burntAt, r :: rs, sentCant =>
      if !sentCant && burntAt == 0 then
        .CantDo name :: r :: writerLoop name 0 rs true
      else
        r :: writerLoop name (burntAt - 1) rs sentCant

/-- The full sequence of requests the writer puts on the wire. -/
def writerWire (name : List Nat) (reqs : List Request) (burntAt : Nat) : List Request :=
  writerLoop name burntAt reqs false

def isCantDo : Request → Bool
  | .CantDo _ => true
  | _ => false

def countCantDo (w : List Request) : Nat := (w.filter isCantDo).length

theorem countCantDo_cons (r : Request) (w : List Request) :
    countCantDo (r :: w) = (if isCantDo r then 1 else 0) + countCantDo w := by
  simp only [countCantDo, List.filter]
  split <;> simp_all
  omega

theorem writerLoop_count (name : List Nat) (reqs : List Request) :
    ∀ (burntAt : Nat) (sentCant : Bool), (∀ r ∈ reqs, isCantDo r = false) →
      countCantDo (writerLoop name burntAt reqs sentCant) = if sentCant then 0 else 1 := by
  induction reqs with
  | nil =>
      intro burntAt sentCant _
      cases sentCant <;> simp [writerLoop, countCantDo, List.filter, isCantDo]
  | cons r rs ih =>
      intro burntAt sentCant hno
      have hr : isCantDo r = false := hno r (List.mem_cons_self r rs)
      have hrs : ∀ x ∈ rs, isCantDo x = false :=
        fun x hx => hno x (List.mem_cons_of_mem r hx)
      cases sentCant with
      | false =>
          by_cases hb : burntAt = 0
          · subst hb
            simp only [writerLoop, Bool.not_false, Bool.true_and, beq_self_eq_true, if_pos]
            rw [countCantDo_cons, countCantDo_cons, ih 0 true hrs]
            have hcd : isCantDo (.CantDo name) = true := rfl
            simp [hcd, hr]
          · rw [writerLoop]
            rw [if_neg (by simp [hb])]
            rw [countCantDo_cons, ih (burntAt - 1) false hrs]
            simp [hr]
      | true =>
          rw [writerLoop]
          rw [if_neg (by simp)]
          rw [countCantDo_cons, ih (burntAt - 1) true hrs]
          simp [hr]

theorem writerLoop_no_burn (name : List Nat) (reqs : List Request) :
    ∀ (burntAt : Nat), reqs.length ≤ burntAt →
      writerLoop name burntAt reqs false = reqs ++ [.CantDo name] := by
  induction reqs with
  | nil => intro burntAt _; simp [writerLoop]
  | cons r rs ih =>
      intro burntAt hle
      have hb : burntAt ≠ 0 := by simp at hle; omega
      rw [writerLoop, if_neg (by simp [hb])]
      rw [ih (burntAt - 1) (by simp at hle ⊢; omega)]
      simp

/-- C3 counterexample: with one WorkComplete-era request still queued
when the latch is already burnt, the writer sends CantDo BEFORE the
queued request; the CantDo is not the last request on the wire. -/
theorem c3_cantdo_not_last_cex :
    writerWire [102] [.PreSleep] 0 = [.CantDo [102], .PreSleep] ∧
    (writerWire [102] [.PreSleep] 0).getLast? ≠ some (.CantDo [102]) := by
  constructor
  · rfl
  · decide

/-- C3 amended: on every writer run, exactly one CantDo is sent before
the connection closes; it is the last request on the wire when no
requests remain to be dequeued after the latch burns, but when the
latch is already burnt while requests are still queued, the CantDo
precedes them. -/
theorem c3_cantdo_exactly_once (name : List Nat) (reqs : List Request) (burntAt : Nat)
    (hno : ∀ r ∈ reqs, isCantDo r = false) :
    countCantDo (writerWire name reqs burntAt) = 1 ∧
    (reqs.length ≤ burntAt →
      (writerWire name reqs burntAt).getLast? = some (.CantDo name)) := by
  constructor
  · simpa using writerLoop_count name reqs burntAt false hno
  · intro hle
    rw [writerWire, writerLoop_no_burn name reqs burntAt hle]
    simp

/-- Witness for C3 amended: two queued requests, latch burnt only after
both are dequeued — one CantDo, and it is the final request. -/
theorem c3_cantdo_exactly_once_witness :
    countCantDo (writerWire [102] [.PreSleep, .GrabJobUniq] 2) = 1 ∧
    (writerWire [102] [.PreSleep, .GrabJobUniq] 2).getLast? = some (.CantDo [102]) :=
  ⟨(c3_cantdo_exactly_once [102] [.PreSleep, .GrabJobUniq] 2 (by decide)).1,
   (c3_cantdo_exactly_once [102] [.PreSleep, .GrabJobUniq] 2 (by decide)).2 (by decide)⟩

/-! ## The assignee task and load accounting (`src/state/assignee.rs`)

`current_load` is an `AtomicUsize`: `fetch_add(1)` on an assignment,
`fetch_sub(1)` in the spawned job task when it completes; both wrap
modulo `2 ^ 64` as `usize` arithmetic does.  A completion can only
follow the assignment that spawned its task, so event sequences are
constrained to prefixes with no more completions than assignments. -/

def USIZE : Nat := 2 ^ 64

inductive LoadEvent where
  | assign
  | completeJob
deriving DecidableEq

/-- Effect of one event on `current_load` (`fetch_add(1)` resp.
`fetch_sub(1)`, with `usize` wrapping). -/
def loadStep (load : Nat) : LoadEvent → Nat
  | .assign => (load + 1) % USIZE
  | .completeJob => (load + (USIZE - 1)) % USIZE

def loadAfter (evs : List LoadEvent) : Nat := evs.foldl loadStep 0

def countA : List LoadEvent → Nat
  | [] => 0
  | .assign :: r => countA r + 1
  | .completeJob :: r => countA r

def countC : List LoadEvent → Nat
  | [] => 0
  | .assign :: r => countC r
  | .completeJob :: r => countC r + 1

/-- Event sequences in which every completion is preceded by a matching
assignment (the only sequences the task structure can produce), with
`a` jobs already in flight. -/
def validFrom : Nat → List LoadEvent → Bool
  | _, [] => true
  | a, .assign :: r => validFrom (a + 1) r
  | a, .completeJob :: r => if a == 0 then false else validFrom (a - 1) r

theorem loadFold_general (evs : List LoadEvent) :
    ∀ a : Nat, validFrom a evs = true → a + countA evs < USIZE →
      (evs.foldl loadStep a = a + countA evs - countC evs ∧
       countC evs ≤ a + countA evs) := by
  induction evs with
  | nil =>
      intro a _ _
      simp [countA, countC]
  | cons e rest ih =>
      intro a hv hb
      cases e with
      | assign =>
          rw [validFrom] at hv
          rw [countA] at hb ⊢
          rw [countC]
          have ha1 : a + 1 < USIZE := by omega
          have hstep : loadStep a .assign = a + 1 := by
            simp only [loadStep]
            exact Nat.mod_eq_of_lt ha1
          rw [List.foldl_cons, hstep]
          have := ih (a + 1) hv (by omega)
          omega
      | completeJob =>
          rw [validFrom] at hv
          by_cases ha : a = 0
          · subst ha; simp at hv
          · rw [if_neg (by simpa using ha)] at hv
            rw [countA] at hb ⊢
            rw [countC]
            have haU : a < USIZE := by omega
            have hstep : loadStep a .completeJob = a - 1 := by
              simp only [loadStep, USIZE]
              unfold USIZE at haU
              omega
            rw [List.foldl_cons, hstep]
            have := ih (a - 1) hv (by omega)
            omega

/-- C5 counterexample: with concurrency 1, two assignments arriving
before any completion drive `current_load` to 2, above the
concurrency bound — the assignee increments unconditionally. -/
theorem c5_load_bound_cex :
    validFrom 0 [.assign, .assign] = true ∧
    loadAfter [.assign, .assign] = 2 ∧
    ¬(loadAfter [.assign, .assign] ≤ 1) := by decide

/-- C5 amended: for every valid sequence of assignments and
completions, in any interleaving, `current_load` equals assignments
minus completions — hence it is never negative and is 0 once every
assignment has completed; the upper bound by `concurrency` is NOT
enforced by the load accounting itself. -/
theorem c5_load_accounting (evs : List LoadEvent)
    (hv : validFrom 0 evs = true) (hb : countA evs < USIZE) :
    loadAfter evs = countA evs - countC evs ∧
    countC evs ≤ countA evs ∧
    (countC evs = countA evs → loadAfter evs = 0) := by
  have h := loadFold_general evs 0 hv (by omega)
  refine ⟨by simpa [loadAfter] using h.1, by simpa using h.2, ?_⟩
  intro he
  have h1 := h.1
  simp only [Nat.zero_add] at h1
  simp [loadAfter, h1, he]

/-- Witness for C5 amended: one assignment followed by its completion
brings the load back to 0. -/
theorem c5_load_accounting_witness :
    loadAfter [.assign, .completeJob] = 0 := by
  have h := c5_load_accounting [.assign, .completeJob] (by decide) (by decide)
  exact h.2.2 (by decide)

/-- One `JobAssignUniq` as the assignee consumes it. -/
structure Assignment where
  handle : List Nat
  name : List Nat
  unique : List Nat
  workload : List Nat
deriving DecidableEq

/-- What the assignee can do per assignment: solicit more work
(`PreSleep`), spawn the inline stub job task, or construct and spawn an
Order runner (`Worker::order` / `Order::run` — present in the source,
but never invoked by this assignee). -/
inductive AssigneeAction where
  | sendPreSleep
  | spawnJob (sleepSecs : Nat) (completion : Request)
  | spawnOrder (handle unique workload : List Nat)
deriving DecidableEq

/-- The fixed body the stub job task sends. -/
def completeBody : List Nat := strBytes "\x7b\"error\":null,\"data\":null\x7d"

/-- `Worker::assignee` handling one `JobAssignUniq`: `fetch_add(1)` on
`current_load`; if the new value is below `concurrency`, enqueue
`PreSleep`; then spawn a task that sleeps 4 seconds and sends
`WorkComplete` with the fixed body.  The assignment's `name` is only
logged, never compared against the worker's name. -/
def assigneeStep (concurrency load : Nat) (a : Assignment) : Nat × List AssigneeAction :=
  let load' := (load + 1) % USIZE
  (load',
    (if load' < concurrency then [AssigneeAction.sendPreSleep] else []) ++
      [AssigneeAction.spawnJob 4 (.WorkComplete a.handle completeBody)])

/-- C8 counterexample: an assignment whose name [111] differs from the
worker's name [102, 110] is neither dropped nor left uncounted — the
assignee increments `current_load` from 0 to 1 and spawns the job. -/
theorem c8_no_validation_cex :
    ([111] : List Nat) ≠ [102, 110] ∧
    (assigneeStep 1 0 { handle := [72], name := [111], unique := [117], workload := [119] }).1
      = 1 ∧
    (assigneeStep 1 0 { handle := [72], name := [111], unique := [117], workload := [119] }).2
      = [.spawnJob 4 (.WorkComplete [72] completeBody)] := by decide

/-- C8 amended: the assignee performs no name validation at all: every
`JobAssignUniq` increments `current_load` and is processed identically
whatever its `name` field holds. -/
theorem c8_assignee_ignores_name (concurrency load : Nat) (a : Assignment)
    (other : List Nat) :
    (assigneeStep concurrency load a).1 = (load + 1) % USIZE ∧
    assigneeStep concurrency load { a with name := other } =
      assigneeStep concurrency load a :=
  ⟨rfl, rfl⟩

/-- C10: every action the assignee takes for a `JobAssignUniq` is
either a `PreSleep` solicitation or the spawn of the stub task that
sleeps 4 seconds and sends `WorkComplete` with the fixed body
`{"error":null,"data":null}` — in particular it never constructs an
Order or launches the child executor. -/
theorem c10_assignee_stub (concurrency load : Nat) (a : Assignment)
    (act : AssigneeAction) (h : act ∈ (assigneeStep concurrency load a).2) :
    act = .sendPreSleep ∨
    act = .spawnJob 4 (.WorkComplete a.handle completeBody) := by
  simp only [assigneeStep] at h
  rcases List.mem_append.mp h with h1 | h2
  · by_cases hc : (load + 1) % USIZE < concurrency
    · rw [if_pos hc] at h1
      left
      simpa using h1
    · rw [if_neg hc] at h1
      cases h1
  · right
    simpa using h2

/-- Witness for C10 at a concrete assignment with spare capacity. -/
theorem c10_assignee_stub_witness :
    AssigneeAction.spawnJob 4 (.WorkComplete [72] completeBody) = .sendPreSleep ∨
    AssigneeAction.spawnJob 4 (.WorkComplete [72] completeBody) =
      .spawnJob 4 (.WorkComplete [72] completeBody) :=
  c10_assignee_stub 2 0 { handle := [72], name := [110], unique := [117], workload := [119] }
    _ (by decide)

/-! ## The reader task (`src/state/reader.rs`, `Worker::reader`)

The reader appends each received chunk to its `packet` buffer, then
parses frames in a loop.  On a successful parse it keeps the rest and
continues; on ANY decode error — "not enough data" or otherwise — it
executes `continue 'recv`: the buffer is NOT cleared (the code only
logs "throwing away N bytes").  Surfaced packets are collected in
order.  The fuel argument bounds the parse loop; it never runs out
because every parsed frame consumes at least the 12 header bytes. -/

def parseAll : Nat → List Nat → List Parsed → List Nat × List Parsed
  | 0, buf, out => (buf, out)
  | _ + 1, [], out => ([], out)
  | fuel + 1, buf, out =>
      match decodePacket buf with
      | .ok p rest => parseAll fuel rest (out ++ [p])
      | _ => (buf, out)

def readerChunkStep (st : List Nat × List Parsed) (chunk : List Nat) :
    List Nat × List Parsed :=
  parseAll ((st.1 ++ chunk).length + 1) (st.1 ++ chunk) st.2

/-- The reader's buffer and surfaced packets after consuming a sequence
of received chunks. -/
def readerRun (chunks : List (List Nat)) : List Nat × List Parsed :=
  chunks.foldl readerChunkStep ([], [])

/-- Modelled from the spec: "On `malformed`, discard the entire buffer,
log, and continue at step 1."  The discarding variant of the parse
loop, for comparison with `parseAll`, which — like the code — keeps
the buffer on a malformed frame. -/
def specParseAll : Nat → List Nat → List Parsed → List Nat × List Parsed
  | 0, buf, out => (buf, out)
  | _ + 1, [], out => ([], out)
  | fuel + 1, buf, out =>
      match decodePacket buf with
      | .ok p rest => specParseAll fuel rest (out ++ [p])
      | .incomplete => (buf, out)
      | _ => ([], out)

def specReaderChunkStep (st : List Nat × List Parsed) (chunk : List Nat) :
    List Nat × List Parsed :=
  specParseAll ((st.1 ++ chunk).length + 1) (st.1 ++ chunk) st.2

def specReaderRun (chunks : List (List Nat)) : List Nat × List Parsed :=
  chunks.foldl specReaderChunkStep ([], [])

/-- C4: the reader does NOT discard the buffer on a malformed frame.
After receiving a malformed 4-byte chunk and then two valid frames
(a Noop and a NoJob), the code's reader still holds all 28 bytes and
has surfaced nothing — the stale malformed prefix blocks every later
parse — whereas the discard behaviour the spec describes would
surface both frames. -/
theorem c4_reader_keeps_buffer :
    readerRun [[222, 173, 190, 239],
        [0, 82, 69, 83, 0, 0, 0, 6, 0, 0, 0, 0] ++
          [0, 82, 69, 83, 0, 0, 0, 10, 0, 0, 0, 0]] =
      ([222, 173, 190, 239, 0, 82, 69, 83, 0, 0, 0, 6, 0, 0, 0, 0,
        0, 82, 69, 83, 0, 0, 0, 10, 0, 0, 0, 0], []) ∧
    specReaderRun [[222, 173, 190, 239],
        [0, 82, 69, 83, 0, 0, 0, 6, 0, 0, 0, 0] ++
          [0, 82, 69, 83, 0, 0, 0, 10, 0, 0, 0, 0]] =
      ([], [.res .Noop, .res .NoJob]) := by decide

/-! ## The Fuze latch (`fuze/src/lib.rs`)

A Fuze wraps a bounded channel: `burn` closes the sender (if not
already closed), `burnt` reports `is_closed`, and `wait` receives —
returning immediately once the channel is closed, or consuming a
buffered message when one exists (`with_channel`).  Closing a channel
is one-way: no operation reopens it. -/

structure FuzeState where
  closed : Bool
  queued : List Nat
deriving DecidableEq

/-- `Fuze::burn`: close the channel unless already closed. -/
def Fuze.burn (s : FuzeState) : FuzeState :=
  if s.closed then s else { s with closed := true }

/-- `Fuze::burnt`: the synchronous query `self.s.is_closed()`. -/
def Fuze.burnt (s : FuzeState) : Bool := s.closed

/-- State effect of `Fuze::wait` when it returns: on a closed channel
it returns at once; on an open channel `recv` consumes a buffered
message if one exists, else it blocks until some other task burns the
latch (no state change of its own). -/
def Fuze.waitStep (s : FuzeState) : FuzeState :=
  if s.closed then s
  else
    match s.queued with
    | _ :: rest => { s with queued := rest }
    | [] => s

inductive FuzeOp where
  | burn
  | burnt
  | wait
deriving DecidableEq

def fuzeStep (s : FuzeState) : FuzeOp → FuzeState
  | .burn => Fuze.burn s
  | .burnt => s
  | .wait => Fuze.waitStep s

def applyFuzeOps (s : FuzeState) (ops : List FuzeOp) : FuzeState :=
  ops.foldl fuzeStep s

/-- C9: burning is idempotent, the synchronous query reports burnt
right after any burn, and a burnt latch stays burnt under every
subsequent sequence of burn / burnt / wait operations. -/
theorem c9_fuze_latch (s : FuzeState) (ops : List FuzeOp) :
    Fuze.burn (Fuze.burn s) = Fuze.burn s ∧
    Fuze.burnt (Fuze.burn s) = true ∧
    (Fuze.burnt s = true → Fuze.burnt (applyFuzeOps s ops) = true) := by
  refine ⟨?_, ?_, ?_⟩
  · obtain ⟨c, q⟩ := s
    cases c <;> simp [Fuze.burn]
  · obtain ⟨c, q⟩ := s
    cases c <;> simp [Fuze.burn, Fuze.burnt]
  · intro h
    induction ops generalizing s with
    | nil => exact h
    | cons op rest ih =>
        have hstep : Fuze.burnt (fuzeStep s op) = true := by
          obtain ⟨c, q⟩ := s
          simp only [Fuze.burnt] at h
          subst h
          cases op <;> simp [fuzeStep, Fuze.burn, Fuze.burnt, Fuze.waitStep]
        exact ih _ hstep

/-- Witness for C9: a latch that was burnt stays burnt across a wait,
another burn, and a query. -/
theorem c9_fuze_latch_witness :
    Fuze.burnt (applyFuzeOps { closed := true, queued := [] } [.wait, .burn, .burnt]) = true :=
  (c9_fuze_latch { closed := true, queued := [] } [.wait, .burn, .burnt]).2.2 rfl

end Superman
